import Mathlib

namespace Fscrypt

/-! ## Definitions: the shallow embedding of the source -/

def lookup_table : List Char :=
  "ABCDEFGHIJKLMNOPQRSTUVWXYZabcdefghijklmnopqrstuvwxyz0123456789+,".toList

def lookupChar (v : Nat) : Char := lookup_table.getD v 'A'

def emitLoopGo : Nat → Nat → Nat → List Char × Nat × Nat
  | 0, ac, bits => ([lookupChar (ac % 64)], ac / 64, bits - 6)
  | fuel + 1, ac, bits =>
    if 6 ≤ bits - 6 then
      let r := emitLoopGo fuel (ac / 64) (bits - 6)
      (lookupChar (ac % 64) :: r.1, r.2.1, r.2.2)
    else
      ([lookupChar (ac % 64)], ac / 64, bits - 6)

/-- Entry point of the do-while: `bits` itself is enough fuel, since every
iteration consumes 6 bits (the zero-fuel fallback is unreachable because the
loop is always entered with positive `bits`). -/
def emitLoop (ac bits : Nat) : List Char × Nat × Nat := emitLoopGo bits ac bits

def base64_encode_go : List Nat → Nat → Nat → List Char
  | [], ac, bits => if bits ≠ 0 then [lookupChar (ac % 64)] else []
  | b :: rest, ac, bits =>
    let r := emitLoop (ac + b * 2 ^ bits) (bits + 8)
    r.1 ++ base64_encode_go rest r.2.1 r.2.2

def base64_encode (src : List Nat) : List Char := base64_encode_go src 0 0

def base64_decode_go : List Char → Nat → Nat → Except Int (List Nat)
  | [], ac, _bits => if ac ≠ 0 then .error (-1) else .ok []
  | c :: rest, ac, bits =>
    if c ∈ lookup_table then
      let v := lookup_table.indexOf c
      let ac' := ac + v * 2 ^ bits
      if bits + 6 ≥ 8 then
        match base64_decode_go rest (ac' / 256) (bits + 6 - 8) with
        | .error e => .error e
        | .ok out => .ok (ac' % 256 :: out)
      else
        base64_decode_go rest ac' (bits + 6)
    else
      .error (-2)

def base64_decode (src : List Char) : Except Int (List Nat) :=
  base64_decode_go src 0 0

/-- A byte sequence read as a little-endian natural number. -/
def natOfBytesLE : List Nat → Nat
  | [] => 0
  | b :: rest => b + 256 * natOfBytesLE rest

/-- Modelled from the spec: one cipher block of the filename cipher
(FS_CRYPTO_BLOCK_SIZE in the private header, 16 bytes). -/
def FS_CRYPTO_BLOCK_SIZE : Nat := 16

/-- Modelled from the spec: the padding-length selector occupies the two low
flag bits, giving the four granularities 4, 8, 16, 32
(FS_POLICY_FLAGS_PAD_MASK in the shared header). -/
def FS_POLICY_FLAGS_PAD_MASK : Nat := 3

/-- The kernel round_up macro, `((x - 1) | (n - 1)) + 1` for power-of-two n. -/
def round_up (x n : Nat) : Nat := ((x - 1) ||| (n - 1)) + 1

/-- `fscrypt_fname_encrypted_size` from the source: reject names longer than
`max_len`, otherwise round `max(orig_len, one block)` up to the padding
granularity selected by the low flag bits and clamp to `max_len`.  Lengths
are u32 in the source, hence the explicit wrap of the rounded value. -/
def fscrypt_fname_encrypted_size (ci_flags orig_len max_len : Nat) : Option Nat :=
  let padding := 4 <<< (ci_flags &&& FS_POLICY_FLAGS_PAD_MASK)
  if orig_len > max_len then none
  else some (min (round_up (max orig_len FS_CRYPTO_BLOCK_SIZE) padding % 2 ^ 32) max_len)

/-- Modelled from the spec: the V1 policy version tag
(FSCRYPT_POLICY_V1 = 0 in the shared header). -/
def FSCRYPT_POLICY_V1 : Nat := 0

/-- Modelled from the spec: the direct-key feature flag, the single flag bit
above the two padding-selector bits (FSCRYPT_POLICY_FLAG_DIRECT_KEY). -/
def FSCRYPT_POLICY_FLAG_DIRECT_KEY : Nat := 4

def EINVAL : Int := 22

def EEXIST : Int := 17

def ENODATA : Int := 61

def ENOTDIR : Int := 20

def ENOENT : Int := 2

def ENOTEMPTY : Int := 39

def EACCES : Int := 13

def ERANGE : Int := 34

def ENOKEY : Int := 126

def EUCLEAN : Int := 117

def ENAMETOOLONG : Int := 36

/-- struct fscrypt_policy_v1: version byte, two mode bytes, flags byte and
the fixed 8-byte master key descriptor. -/
structure fscrypt_policy_v1 where
  version : Nat
  contents_encryption_mode : Nat
  filenames_encryption_mode : Nat
  flags : Nat
  master_key_descriptor : List Nat
deriving DecidableEq

/-- memcpy into the fixed 8-byte key-descriptor array: exactly 8 bytes are
copied (identity on well-formed length-8 lists). -/
def copy8 (l : List Nat) : List Nat := l.take 8 ++ List.replicate (8 - l.length) 0

/-- struct fscrypt_context_v1: the policy fields plus the 16-byte nonce. -/
structure fscrypt_context_v1 where
  version : Nat
  contents_encryption_mode : Nat
  filenames_encryption_mode : Nat
  flags : Nat
  master_key_descriptor : List Nat
  nonce : List Nat
deriving DecidableEq

/-- fscrypt_supported_v1_policy from the source.  The mode-pair validity
check (fscrypt_valid_enc_modes, in the private header) is an explicit
parameter; IS_CASEFOLDED on the target inode is the boolean argument.
The source rejects `flags & ~(PAD_MASK | DIRECT_KEY)` nonzero, i.e. any
flag bit outside that mask, written here as flags-and-mask differing from
flags. -/
def fscrypt_supported_v1_policy (valid_enc_modes : Nat → Nat → Bool)
    (p : fscrypt_policy_v1) (casefolded : Bool) : Bool :=
  if ¬ valid_enc_modes p.contents_encryption_mode p.filenames_encryption_mode then false
  else if p.flags &&& (FS_POLICY_FLAGS_PAD_MASK ||| FSCRYPT_POLICY_FLAG_DIRECT_KEY)
      ≠ p.flags then false
  else if p.flags &&& FSCRYPT_POLICY_FLAG_DIRECT_KEY ≠ 0 then false
  else if casefolded then false
  else true

/-- fscrypt_supported_policy from the source: switch on the version with the
single V1 case, anything else unsupported. -/
def fscrypt_supported_policy (valid_enc_modes : Nat → Nat → Bool)
    (p : fscrypt_policy_v1) (casefolded : Bool) : Bool :=
  if p.version = FSCRYPT_POLICY_V1 then
    fscrypt_supported_v1_policy valid_enc_modes p casefolded
  else false

/-- Modelled from the spec: fscrypt_policy_size from the private header —
the record size determined by the version; the V1 record is 12 bytes
(version, two modes, flags, 8-byte descriptor), unknown versions are
negative. -/
def fscrypt_policy_size (p : fscrypt_policy_v1) : Int :=
  if p.version = FSCRYPT_POLICY_V1 then 12 else -1

/-- The 12 wire bytes of a V1 policy record, field by field; every field is
u8 in the source, hence the truncations. -/
def fscrypt_policy_bytes (p : fscrypt_policy_v1) : List Nat :=
  [p.version % 256, p.contents_encryption_mode % 256,
   p.filenames_encryption_mode % 256, p.flags % 256]
    ++ (copy8 p.master_key_descriptor).map (· % 256)

/-- fscrypt_policies_equal from the source: false when the versions differ,
else memcmp over fscrypt_policy_size(policy1) bytes (the versions being
equal, both records have that size). -/
def fscrypt_policies_equal (p1 p2 : fscrypt_policy_v1) : Bool :=
  if p1.version ≠ p2.version then false
  else (fscrypt_policy_bytes p1).take (fscrypt_policy_size p1).toNat
    == (fscrypt_policy_bytes p2).take (fscrypt_policy_size p1).toNat

/-- fscrypt_new_context_from_policy from the source; the fresh nonce comes
from get_random_bytes and is passed as a parameter.  Returns the context
and its size, sizeof(fscrypt_context_v1) = 28. -/
def fscrypt_new_context_from_policy (nonce : List Nat) (p : fscrypt_policy_v1) :
    fscrypt_context_v1 × Int :=
  ({ version := 1
     contents_encryption_mode := p.contents_encryption_mode
     filenames_encryption_mode := p.filenames_encryption_mode
     flags := p.flags
     master_key_descriptor := copy8 p.master_key_descriptor
     nonce := nonce }, 28)

/-- fscrypt_policy_from_context from the source: invert a context to a
policy, dropping the nonce; any version other than 1 is -EINVAL.  The size
argument is accepted but, as in the source, never inspected. -/
def fscrypt_policy_from_context (ctx : fscrypt_context_v1) (_ctx_size : Int) :
    Except Int fscrypt_policy_v1 :=
  match ctx.version with
  | 1 =>
    .ok { version := FSCRYPT_POLICY_V1
          contents_encryption_mode := ctx.contents_encryption_mode
          filenames_encryption_mode := ctx.filenames_encryption_mode
          flags := ctx.flags
          master_key_descriptor := copy8 ctx.master_key_descriptor }
  | _ => .error (-EINVAL)

/-- S_ISREG / S_ISDIR / S_ISLNK file kinds, with a fourth case for the
special files that are never encrypted. -/
inductive FileKind where
  | reg
  | dir
  | lnk
  | other
deriving DecidableEq

/-- The slice of the VFS inode and of its filesystem collaborators that the
policy code reads.  Per the spec's external-interface section, the
collaborator outcomes are carried as per-inode result fields: `get_context`
is the storage read of the context blob (with its returned size),
`get_info_err` the fscrypt_get_encryption_info outcome (modelled from the
spec: resolve-or-fail of key material, 0 on success), `i_crypt_info` the
cached resolved policy when the key is present, `set_context_err` the
storage write outcome, `mnt_want_write_err` the write-access outcome. -/
structure Inode where
  i_mode : FileKind
  encrypted : Bool
  casefolded : Bool
  deaddir : Bool
  i_crypt_info : Option fscrypt_policy_v1
  get_context : Except Int (fscrypt_context_v1 × Int)
  get_info_err : Int
  empty_dir : Bool
  owner_or_capable : Bool
  mnt_want_write_err : Int
  set_context_err : Int
  max_namelen : Nat

/-- fscrypt_get_policy from the source: use the cached info when present;
otherwise an unencrypted inode is -ENODATA; otherwise read the context
(normalising -ERANGE to -EINVAL) and convert it. -/
def fscrypt_get_policy (i : Inode) : Except Int fscrypt_policy_v1 :=
  match i.i_crypt_info with
  | some ci => .ok ci
  | none =>
    if ¬ i.encrypted then .error (-ENODATA)
    else
      match i.get_context with
      | .error ret => if ret = -ERANGE then .error (-EINVAL) else .error ret
      | .ok (ctx, ret) => fscrypt_policy_from_context ctx ret

/-- fscrypt_has_permitted_context from the source; 1 permitted, 0 forbidden. -/
def fscrypt_has_permitted_context (parent child : Inode) : Int :=
  if child.i_mode ≠ FileKind.reg ∧ child.i_mode ≠ FileKind.dir
      ∧ child.i_mode ≠ FileKind.lnk then 1
  else if ¬ parent.encrypted then 1
  else if ¬ child.encrypted then 0
  else if parent.get_info_err ≠ 0 then 0
  else if child.get_info_err ≠ 0 then 0
  else
    match fscrypt_get_policy parent with
    | .error _ => 0
    | .ok parent_policy =>
      match fscrypt_get_policy child with
      | .error _ => 0
      | .ok child_policy =>
        if fscrypt_policies_equal parent_policy child_policy then 1 else 0

/-- set_encryption_policy from the source: validate, then synthesize a
context (fresh nonce, not observable in the return value) and store it via
the collaborator, whose outcome is the inode's `set_context_err`. -/
def set_encryption_policy (valid_enc_modes : Nat → Nat → Bool) (i : Inode)
    (p : fscrypt_policy_v1) : Int :=
  if ¬ fscrypt_supported_policy valid_enc_modes p i.casefolded then -EINVAL
  else i.set_context_err

/-- fscrypt_ioctl_set_policy from the source.  The user copies are assumed
to succeed (the policy argument is the copied-in record); the version-size
check, permission check, write access, and the get-policy dispatch follow
the source's control flow. -/
def fscrypt_ioctl_set_policy (valid_enc_modes : Nat → Nat → Bool) (i : Inode)
    (policy : fscrypt_policy_v1) : Int :=
  if fscrypt_policy_size policy ≤ 0 then -EINVAL
  else if ¬ i.owner_or_capable then -EACCES
  else if i.mnt_want_write_err ≠ 0 then i.mnt_want_write_err
  else
    match fscrypt_get_policy i with
    | .error ret =>
      if ret = -ENODATA then
        if i.i_mode ≠ FileKind.dir then -ENOTDIR
        else if i.deaddir then -ENOENT
        else if ¬ i.empty_dir then -ENOTEMPTY
        else set_encryption_policy valid_enc_modes i policy
      else if ret = -EINVAL then -EEXIST
      else ret
    | .ok existing_policy =>
      if ¬ fscrypt_policies_equal policy existing_policy then -EEXIST else 0

/-- offsetofend(struct fscrypt_nokey_name, sha256): the 8-byte dirhash pair,
the 149-byte ciphertext field and the 32-byte digest, 189 bytes in all. -/
def FSCRYPT_NOKEY_NAME_MAX : Nat := 189

/-- A u32 serialized to its four little-endian bytes (the record crosses the
user boundary as raw struct memory; the driver's targets are little-endian). -/
def u32le (x : Nat) : List Nat :=
  [x % 256, x / 256 % 256, x / 65536 % 256, x / 16777216 % 256]

/-- A u32 read back from the first four bytes of a buffer, little-endian. -/
def u32le_val (l : List Nat) : Nat :=
  l.getD 0 0 + 256 * l.getD 1 0 + 65536 * l.getD 2 0 + 16777216 * l.getD 3 0

/-- The dirhash field of struct fscrypt_nokey_name as filled by
fscrypt_fname_disk_to_usr: the supplied pair, both words zeroed when `hash`
is zero. -/
def nokey_dirhash (hash minor_hash : Nat) : List Nat :=
  if hash ≠ 0 then u32le hash ++ u32le minor_hash else u32le 0 ++ u32le 0

/-- The unencoded nokey-name record built by fscrypt_fname_disk_to_usr: the
dirhash pair, then either the whole ciphertext (the serialized size is
offsetof(bytes[len])) or the 149-byte ciphertext portion followed by the
strong hash of the remainder (size FSCRYPT_NOKEY_NAME_MAX).  The strong-hash
capability is the `sha256` parameter. -/
def fscrypt_nokey_name_bytes (sha256 : List Nat → List Nat) (hash minor_hash : Nat)
    (iname : List Nat) : List Nat :=
  nokey_dirhash hash minor_hash ++
    (if iname.length ≤ 149 then iname
     else iname.take 149 ++ sha256 (iname.drop 149))

/-- fscrypt_is_dot_dotdot on a disk-byte name (46 is the period). -/
def is_dot_dotdot_bytes (l : List Nat) : Bool :=
  l == [46] || l == [46, 46]

/-- fscrypt_is_dot_dotdot on a user-text name. -/
def is_dot_dotdot (s : List Char) : Bool :=
  s == [Char.ofNat 46] || s == [Char.ofNat 46, Char.ofNat 46]

/-- fscrypt_fname_disk_to_usr from the source.  The inode is consulted for
key presence (`has_key`, fscrypt_has_encryption_key); keyed decryption and
the strong hash are capabilities passed as functions (fname_decrypt, and the
crypto_shash_digest behind fscrypt_do_sha256 — the shared-instance bootstrap
and its allocation failure live outside the model). -/
def fscrypt_fname_disk_to_usr (sha256 : List Nat → List Nat)
    (decrypt : List Nat → Except Int (List Nat)) (has_key : Bool)
    (hash minor_hash : Nat) (iname : List Nat) : Except Int (List Char) :=
  if is_dot_dotdot_bytes iname then .ok (iname.map Char.ofNat)
  else if iname.length < FS_CRYPTO_BLOCK_SIZE then .error (-EUCLEAN)
  else if has_key then
    match decrypt iname with
    | .error e => .error e
    | .ok plain => .ok (plain.map Char.ofNat)
  else
    .ok (base64_encode (fscrypt_nokey_name_bytes sha256 hash minor_hash iname))

/-- struct fscrypt_name as filled by fscrypt_setup_filename; a NULL
disk_name is `none`. -/
structure fscrypt_name where
  usr_fname : List Char
  disk_name : Option (List Nat)
  hash : Nat
  minor_hash : Nat
  crypto_buf : List Nat
  is_ciphertext_name : Bool
deriving DecidableEq

/-- fscrypt_setup_filename from the source.  `encrypt` is the fname_encrypt
capability (plaintext bytes and padded output length to ciphertext);
allocations are assumed to succeed.  In the keyless branch the source's
single range check `ret < offsetof(bytes[1]) || (ret > offsetof(sha256) &&
ret != FSCRYPT_NOKEY_NAME_MAX)` sees either the decoded byte count or a
negative decode error; both decode errors fall below offsetof(bytes[1]) = 9,
so the explicit error match here returns the same -ENOENT. -/
def fscrypt_setup_filename (encrypt : List Nat → Nat → Except Int (List Nat))
    (dir : Inode) (iname : List Char) (lookup : Bool) : Except Int fscrypt_name :=
  if ¬ dir.encrypted ∨ is_dot_dotdot iname then
    .ok { usr_fname := iname, disk_name := some (iname.map Char.toNat),
          hash := 0, minor_hash := 0, crypto_buf := [], is_ciphertext_name := false }
  else if dir.get_info_err ≠ 0 then .error dir.get_info_err
  else if dir.i_crypt_info.isSome then
    match fscrypt_fname_encrypted_size ((dir.i_crypt_info.map (·.flags)).getD 0)
        iname.length dir.max_namelen with
    | none => .error (-ENAMETOOLONG)
    | some olen =>
      match encrypt (iname.map Char.toNat) olen with
      | .error e => .error e
      | .ok cipher =>
        .ok { usr_fname := iname, disk_name := some cipher, hash := 0, minor_hash := 0,
              crypto_buf := cipher, is_ciphertext_name := false }
  else if ¬ lookup then .error (-ENOKEY)
  else if iname.length > (4 * FSCRYPT_NOKEY_NAME_MAX + 2) / 3 then .error (-ENOENT)
  else
    match base64_decode iname with
    | .error _ => .error (-ENOENT)
    | .ok bytes =>
      if bytes.length < 9 ∨ (157 < bytes.length ∧ bytes.length ≠ FSCRYPT_NOKEY_NAME_MAX)
        then .error (-ENOENT)
      else
        .ok { usr_fname := iname
              disk_name :=
                if bytes.length ≠ FSCRYPT_NOKEY_NAME_MAX then some (bytes.drop 8) else none
              hash := u32le_val bytes
              minor_hash := u32le_val (bytes.drop 4)
              crypto_buf := bytes
              is_ciphertext_name := true }

instance {e a : Type} [DecidableEq e] [DecidableEq a] : DecidableEq (Except e a) := fun
  | .error x, .error y =>
    if h : x = y then .isTrue (by rw [h]) else .isFalse (by intro hc; cases hc; exact h rfl)
  | .error _, .ok _ => .isFalse (by intro hc; cases hc)
  | .ok _, .error _ => .isFalse (by intro hc; cases hc)
  | .ok x, .ok y =>
    if h : x = y then .isTrue (by rw [h]) else .isFalse (by intro hc; cases hc; exact h rfl)

def vmAll : Nat → Nat → Bool := fun _ _ => true

def p0 : fscrypt_policy_v1 :=
  { version := 0, contents_encryption_mode := 1, filenames_encryption_mode := 4,
    flags := 0, master_key_descriptor := [1, 2, 3, 4, 5, 6, 7, 8] }

def inode_with_policy : Inode :=
  { i_mode := .dir, encrypted := true, casefolded := false, deaddir := false,
    i_crypt_info := some p0, get_context := .error (-61), get_info_err := 0,
    empty_dir := true, owner_or_capable := true, mnt_want_write_err := 0,
    set_context_err := 0, max_namelen := 255 }

def keyless_dir : Inode :=
  { i_mode := .dir, encrypted := true, casefolded := false, deaddir := false,
    i_crypt_info := none, get_context := .error (-61), get_info_err := 0,
    empty_dir := true, owner_or_capable := true, mnt_want_write_err := 0,
    set_context_err := 0, max_namelen := 255 }

def encNone : List Nat → Nat → Except Int (List Nat) := fun _ _ => .error (-5)

/-- Witness for C9 at concrete policies with differing versions. -/
def p_v9 : fscrypt_policy_v1 :=
  { version := 9, contents_encryption_mode := 1, filenames_encryption_mode := 4,
    flags := 0, master_key_descriptor := [1, 2, 3, 4, 5, 6, 7, 8] }

/-- An unencrypted parent directory for the C2 witness. -/
def plain_parent : Inode :=
  { i_mode := .dir, encrypted := false, casefolded := false, deaddir := false,
    i_crypt_info := none, get_context := .error (-61), get_info_err := 0,
    empty_dir := true, owner_or_capable := true, mnt_want_write_err := 0,
    set_context_err := 0, max_namelen := 255 }

/-- The bit stream of a byte sequence most-significant-bit first, the order
the specification sentence prescribes. -/
def bitsMSB (l : List Nat) : List Bool :=
  (l.map (fun b => (List.range 8).map (fun i => b.testBit (7 - i)))).flatten

/-- The value of the 6-bit group starting at position 6*j of a bit stream,
most-significant-bit first; bits beyond the end read as zero, so a final
partial group is emitted zero-padded. -/
def chunk6_val (bits : List Bool) (j : Nat) : Nat :=
  32 * cond (bits.getD (6 * j) false) 1 0
    + 16 * cond (bits.getD (6 * j + 1) false) 1 0
    + 8 * cond (bits.getD (6 * j + 2) false) 1 0
    + 4 * cond (bits.getD (6 * j + 3) false) 1 0
    + 2 * cond (bits.getD (6 * j + 4) false) 1 0
    + cond (bits.getD (6 * j + 5) false) 1 0

/-- The most-significant-bit-first encoder that the specification describes:
6 bits per character taken MSB-first from the byte stream, a final partial
group when the bit count is not a multiple of 6, no padding character. -/
def base64_encode_msb (l : List Nat) : List Char :=
  (List.range ((4 * l.length + 2) / 3)).map (fun j => lookupChar (chunk6_val (bitsMSB l) j))

/-- Fixed collaborators for the C3 witness. -/
def sha_stub : List Nat → List Nat := fun _ => List.replicate 32 5

def dec_stub : List Nat → Except Int (List Nat) := fun _ => .error (-5)

/-! ## Theorems -/

theorem lookup_table_roundtrip :
    ∀ v : Nat, v < 64 →
      lookupChar v ∈ lookup_table ∧ lookup_table.indexOf (lookupChar v) = v := by
  decide

theorem emitLoopGo_stop (fuel ac bits : Nat) (h2 : bits < 12) :
    emitLoopGo fuel ac bits = ([lookupChar (ac % 64)], ac / 64, bits - 6) := by
  cases fuel with
  | zero => rfl
  | succ f => simp only [emitLoopGo, if_neg (by omega : ¬ 6 ≤ bits - 6)]

theorem emitLoop_one (ac bits : Nat) (_h1 : 6 ≤ bits) (h2 : bits < 12) :
    emitLoop ac bits = ([lookupChar (ac % 64)], ac / 64, bits - 6) :=
  emitLoopGo_stop bits ac bits h2

theorem emitLoop_two (ac bits : Nat) (h1 : 12 ≤ bits) (h2 : bits < 18) :
    emitLoop ac bits
      = ([lookupChar (ac % 64), lookupChar (ac / 64 % 64)], ac / 64 / 64, bits - 12) := by
  rw [emitLoop]
  obtain ⟨f, rfl⟩ : ∃ f, bits = f + 1 := ⟨bits - 1, by omega⟩
  simp only [emitLoopGo, if_pos (by omega : 6 ≤ f + 1 - 6)]
  rw [emitLoopGo_stop f (ac / 64) (f + 1 - 6) (by omega)]
  simp only [Prod.mk.injEq]
  refine ⟨trivial, trivial, by omega⟩

theorem decode_go_cons_valid (v : Nat) (hv : v < 64) (rest : List Char) (ac bits : Nat) :
    base64_decode_go (lookupChar v :: rest) ac bits =
      if bits + 6 ≥ 8 then
        match base64_decode_go rest ((ac + v * 2 ^ bits) / 256) (bits + 6 - 8) with
        | .error e => .error e
        | .ok out => .ok ((ac + v * 2 ^ bits) % 256 :: out)
      else base64_decode_go rest (ac + v * 2 ^ bits) (bits + 6) := by
  have h := lookup_table_roundtrip v hv
  simp only [base64_decode_go, if_pos h.1, h.2]

theorem decode_go_last (v : Nat) (hv : v < 64) (ac bits : Nat) (h8 : 8 ≤ bits + 6)
    (hlt : ac + v * 2 ^ bits < 256) :
    base64_decode_go [lookupChar v] ac bits = .ok [ac + v * 2 ^ bits] := by
  rw [decode_go_cons_valid v hv]
  rw [if_pos h8]
  rw [Nat.div_eq_of_lt hlt]
  rw [show base64_decode_go [] 0 (bits + 6 - 8) = .ok [] from by simp [base64_decode_go]]
  rw [Nat.mod_eq_of_lt hlt]

theorem decode_encode_go (l : List Nat) :
    ∀ ace bite acd, (∀ x ∈ l, x < 256) → bite < 6 → ace < 2 ^ bite →
      acd < 2 ^ ((8 - bite) % 8) →
      base64_decode_go (base64_encode_go l ace bite) acd ((8 - bite) % 8) =
        .ok (if bite = 0 then l else (acd + ace * 2 ^ ((8 - bite) % 8)) :: l) := by
  induction l with
  | nil =>
    intro ace bite acd _ h1 h2 h3
    interval_cases bite
    · have hace : ace = 0 := by simpa using h2
      have hacd : acd = 0 := by simpa using h3
      subst hace hacd
      simp [base64_encode_go, base64_decode_go]
    · norm_num at h2 h3 ⊢
      rw [show base64_encode_go [] ace 1 = [lookupChar (ace % 64)] from by simp [base64_encode_go]]
      rw [Nat.mod_eq_of_lt (by omega)]
      rw [decode_go_last ace (by omega) acd 7 (by norm_num) (by norm_num; omega)]
      norm_num
    · norm_num at h2 h3 ⊢
      rw [show base64_encode_go [] ace 2 = [lookupChar (ace % 64)] from by simp [base64_encode_go]]
      rw [Nat.mod_eq_of_lt (by omega)]
      rw [decode_go_last ace (by omega) acd 6 (by norm_num) (by norm_num; omega)]
      norm_num
    · norm_num at h2 h3 ⊢
      rw [show base64_encode_go [] ace 3 = [lookupChar (ace % 64)] from by simp [base64_encode_go]]
      rw [Nat.mod_eq_of_lt (by omega)]
      rw [decode_go_last ace (by omega) acd 5 (by norm_num) (by norm_num; omega)]
      norm_num
    · norm_num at h2 h3 ⊢
      rw [show base64_encode_go [] ace 4 = [lookupChar (ace % 64)] from by simp [base64_encode_go]]
      rw [Nat.mod_eq_of_lt (by omega)]
      rw [decode_go_last ace (by omega) acd 4 (by norm_num) (by norm_num; omega)]
      norm_num
    · norm_num at h2 h3 ⊢
      rw [show base64_encode_go [] ace 5 = [lookupChar (ace % 64)] from by simp [base64_encode_go]]
      rw [Nat.mod_eq_of_lt (by omega)]
      rw [decode_go_last ace (by omega) acd 3 (by norm_num) (by norm_num; omega)]
      norm_num
  | cons b rest ih =>
    intro ace bite acd hall h1 h2 h3
    have hb : b < 256 := hall b (List.mem_cons_self _ _)
    have hrest : ∀ x ∈ rest, x < 256 := fun x hx => hall x (List.mem_cons_of_mem _ hx)
    interval_cases bite
    · -- bite = 0
      have hace : ace = 0 := by simpa using h2
      have hacd : acd = 0 := by simpa using h3
      subst hace hacd
      simp only [base64_encode_go]
      norm_num
      rw [emitLoop_one b 8 (by norm_num) (by norm_num)]
      simp only [List.singleton_append]
      norm_num
      rw [decode_go_cons_valid (b % 64) (by omega)]
      rw [if_neg (by norm_num)]
      have IH := ih (b / 64) 2 (b % 64) hrest (by norm_num) (by omega) (by norm_num; omega)
      norm_num at IH
      rw [show (0 : Nat) + b % 64 * 2 ^ 0 = b % 64 from by norm_num]
      rw [show (0 : Nat) + 6 = 6 from rfl]
      rw [IH]
      simp only [Except.ok.injEq, List.cons.injEq]
      exact ⟨by omega, trivial⟩
    · -- bite = 1
      norm_num at h2 h3 ⊢
      simp only [base64_encode_go]
      norm_num
      rw [emitLoop_one (ace + b * 2) 9 (by norm_num) (by norm_num)]
      simp only [List.singleton_append]
      norm_num
      rw [decode_go_cons_valid ((ace + b * 2) % 64) (by omega)]
      rw [if_pos (by norm_num)]
      have IH := ih ((ace + b * 2) / 64) 3 ((acd + (ace + b * 2) % 64 * 2 ^ 7) / 256) hrest
        (by norm_num) (by omega) (by norm_num; omega)
      norm_num at IH
      norm_num
      rw [IH]
      simp only [Except.ok.injEq, List.cons.injEq]
      refine ⟨by omega, by omega, trivial⟩
    · -- bite = 2
      norm_num at h2 h3 ⊢
      simp only [base64_encode_go]
      norm_num
      rw [emitLoop_one (ace + b * 4) 10 (by norm_num) (by norm_num)]
      simp only [List.singleton_append]
      norm_num
      rw [decode_go_cons_valid ((ace + b * 4) % 64) (by omega)]
      rw [if_pos (by norm_num)]
      have IH := ih ((ace + b * 4) / 64) 4 ((acd + (ace + b * 4) % 64 * 2 ^ 6) / 256) hrest
        (by norm_num) (by omega) (by norm_num; omega)
      norm_num at IH
      norm_num
      rw [IH]
      simp only [Except.ok.injEq, List.cons.injEq]
      refine ⟨by omega, by omega, trivial⟩
    · -- bite = 3
      norm_num at h2 h3 ⊢
      simp only [base64_encode_go]
      norm_num
      rw [emitLoop_one (ace + b * 8) 11 (by norm_num) (by norm_num)]
      simp only [List.singleton_append]
      norm_num
      rw [decode_go_cons_valid ((ace + b * 8) % 64) (by omega)]
      rw [if_pos (by norm_num)]
      have IH := ih ((ace + b * 8) / 64) 5 ((acd + (ace + b * 8) % 64 * 2 ^ 5) / 256) hrest
        (by norm_num) (by omega) (by norm_num; omega)
      norm_num at IH
      norm_num
      rw [IH]
      simp only [Except.ok.injEq, List.cons.injEq]
      refine ⟨by omega, by omega, trivial⟩
    · -- bite = 4
      norm_num at h2 h3 ⊢
      simp only [base64_encode_go]
      norm_num
      rw [emitLoop_two (ace + b * 16) 12 (by norm_num) (by norm_num)]
      simp only [List.cons_append, List.nil_append]
      norm_num
      rw [decode_go_cons_valid ((ace + b * 16) % 64) (by omega)]
      rw [if_pos (by norm_num)]
      rw [decode_go_cons_valid ((ace + b * 16) / 64 % 64) (by omega)]
      rw [if_pos (by norm_num)]
      have IH := ih ((ace + b * 16) / 64 / 64) 0
        (((acd + (ace + b * 16) % 64 * 2 ^ 4) / 256 + (ace + b * 16) / 64 % 64 * 2 ^ 2) / 256) hrest
        (by norm_num) (by norm_num; omega) (by norm_num; omega)
      norm_num at IH
      norm_num
      rw [IH]
      simp only [Except.ok.injEq, List.cons.injEq]
      refine ⟨by omega, by omega, trivial⟩
    · -- bite = 5
      norm_num at h2 h3 ⊢
      simp only [base64_encode_go]
      norm_num
      rw [emitLoop_two (ace + b * 32) 13 (by norm_num) (by norm_num)]
      simp only [List.cons_append, List.nil_append]
      norm_num
      rw [decode_go_cons_valid ((ace + b * 32) % 64) (by omega)]
      rw [if_pos (by norm_num)]
      rw [decode_go_cons_valid ((ace + b * 32) / 64 % 64) (by omega)]
      rw [if_neg (by norm_num)]
      have IH := ih ((ace + b * 32) / 64 / 64) 1
        ((acd + (ace + b * 32) % 64 * 2 ^ 3) / 256 + (ace + b * 32) / 64 % 64 * 2 ^ 1) hrest
        (by norm_num) (by norm_num; omega) (by norm_num; omega)
      norm_num at IH
      norm_num
      rw [IH]
      simp only [Except.ok.injEq, List.cons.injEq]
      refine ⟨by omega, by omega, trivial⟩

theorem encode_go_spec (l : List Nat) :
    ∀ ac bits, (∀ x ∈ l, x < 256) → bits < 6 → ac < 2 ^ bits →
      base64_encode_go l ac bits =
        (List.range ((8 * l.length + bits + 5) / 6)).map
          (fun j => lookupChar ((ac + 2 ^ bits * natOfBytesLE l) / 64 ^ j % 64)) := by
  induction l with
  | nil =>
    intro ac bits _ h1 h2
    by_cases hb : bits = 0
    · subst hb
      have : ac = 0 := by simpa using h2
      subst this
      simp [base64_encode_go]
    · rw [show (8 * List.length ([] : List Nat) + bits + 5) / 6 = 1 from by
        simp only [List.length_nil]; omega]
      simp only [base64_encode_go, if_pos hb, natOfBytesLE]
      rw [show List.range 1 = [0] from rfl]
      norm_num
  | cons b rest ih =>
    intro ac bits hall h1 h2
    have hb : b < 256 := hall b (List.mem_cons_self _ _)
    have hrest : ∀ x ∈ rest, x < 256 := fun x hx => hall x (List.mem_cons_of_mem _ hx)
    interval_cases bits
    · -- bits = 0
      have hace : ac = 0 := by simpa using h2
      subst hace
      simp only [base64_encode_go, natOfBytesLE, List.length_cons]
      norm_num
      rw [emitLoop_one b 8 (by norm_num) (by norm_num)]
      simp only [List.singleton_append]
      norm_num
      rw [show (8 * (rest.length + 1) + 5) / 6 = (8 * rest.length + 2 + 5) / 6 + 1 from by omega]
      rw [List.range_succ_eq_map]
      simp only [List.map_cons, List.map_map]
      congr 1
      · norm_num
        congr 1
        omega
      · rw [ih (b / 64) 2 hrest (by norm_num) (by omega)]
        apply List.map_congr_left
        intro j hj
        simp only [Function.comp_apply, Nat.succ_eq_add_one]
        norm_num
        congr 1
        rw [pow_succ 64 j, mul_comm (64 ^ j) 64, ← Nat.div_div_eq_div_mul]
        rw [show (b + 256 * natOfBytesLE rest) / 64 = b / 64 + 4 * natOfBytesLE rest from by
          omega]
    · -- bits = 1
      simp only [base64_encode_go, natOfBytesLE, List.length_cons]
      norm_num
      rw [emitLoop_one (ac + b * 2) 9 (by norm_num) (by norm_num)]
      simp only [List.singleton_append]
      norm_num
      rw [show (8 * (rest.length + 1) + 1 + 5) / 6 = (8 * rest.length + 3 + 5) / 6 + 1 from by
        omega]
      rw [List.range_succ_eq_map]
      simp only [List.map_cons, List.map_map]
      congr 1
      · norm_num
        congr 1
        omega
      · rw [ih ((ac + b * 2) / 64) 3 hrest (by norm_num) (by omega)]
        apply List.map_congr_left
        intro j hj
        simp only [Function.comp_apply, Nat.succ_eq_add_one]
        norm_num
        congr 1
        rw [show (64:ℕ) ^ (j + 1) = 64 * 64 ^ j from by rw [pow_succ]; ring]
        rw [← Nat.div_div_eq_div_mul]
        rw [show (ac + 2 * (b + 256 * natOfBytesLE rest)) / 64
              = (ac + b * 2) / 64 + 8 * natOfBytesLE rest from by omega]
    · -- bits = 2
      simp only [base64_encode_go, natOfBytesLE, List.length_cons]
      norm_num
      rw [emitLoop_one (ac + b * 4) 10 (by norm_num) (by norm_num)]
      simp only [List.singleton_append]
      norm_num
      rw [show (8 * (rest.length + 1) + 2 + 5) / 6 = (8 * rest.length + 4 + 5) / 6 + 1 from by
        omega]
      rw [List.range_succ_eq_map]
      simp only [List.map_cons, List.map_map]
      congr 1
      · norm_num
        congr 1
        omega
      · rw [ih ((ac + b * 4) / 64) 4 hrest (by norm_num) (by omega)]
        apply List.map_congr_left
        intro j hj
        simp only [Function.comp_apply, Nat.succ_eq_add_one]
        norm_num
        congr 1
        rw [show (64:ℕ) ^ (j + 1) = 64 * 64 ^ j from by rw [pow_succ]; ring]
        rw [← Nat.div_div_eq_div_mul]
        rw [show (ac + 4 * (b + 256 * natOfBytesLE rest)) / 64
              = (ac + b * 4) / 64 + 16 * natOfBytesLE rest from by omega]
    · -- bits = 3
      simp only [base64_encode_go, natOfBytesLE, List.length_cons]
      norm_num
      rw [emitLoop_one (ac + b * 8) 11 (by norm_num) (by norm_num)]
      simp only [List.singleton_append]
      norm_num
      rw [show (8 * (rest.length + 1) + 3 + 5) / 6 = (8 * rest.length + 5 + 5) / 6 + 1 from by
        omega]
      rw [List.range_succ_eq_map]
      simp only [List.map_cons, List.map_map]
      congr 1
      · norm_num
        congr 1
        omega
      · rw [ih ((ac + b * 8) / 64) 5 hrest (by norm_num) (by omega)]
        apply List.map_congr_left
        intro j hj
        simp only [Function.comp_apply, Nat.succ_eq_add_one]
        norm_num
        congr 1
        rw [show (64:ℕ) ^ (j + 1) = 64 * 64 ^ j from by rw [pow_succ]; ring]
        rw [← Nat.div_div_eq_div_mul]
        rw [show (ac + 8 * (b + 256 * natOfBytesLE rest)) / 64
              = (ac + b * 8) / 64 + 32 * natOfBytesLE rest from by omega]
    · -- bits = 4
      simp only [base64_encode_go, natOfBytesLE, List.length_cons]
      norm_num
      rw [emitLoop_two (ac + b * 16) 12 (by norm_num) (by norm_num)]
      simp only [List.cons_append, List.nil_append]
      norm_num
      rw [show (8 * (rest.length + 1) + 4 + 5) / 6
            = (8 * rest.length + 0 + 5) / 6 + 1 + 1 from by omega]
      rw [List.range_succ_eq_map]
      simp only [List.map_cons, List.map_map]
      congr 1
      · norm_num
        congr 1
        omega
      · rw [List.range_succ_eq_map]
        simp only [List.map_cons, List.map_map]
        congr 1
        · simp only [Function.comp_apply, Nat.succ_eq_add_one]
          norm_num
          congr 1
          omega
        · rw [ih ((ac + b * 16) / 64 / 64) 0 hrest (by norm_num) (by omega)]
          apply List.map_congr_left
          intro j hj
          simp only [Function.comp_apply, Nat.succ_eq_add_one]
          norm_num
          congr 1
          rw [show (64:ℕ) ^ (j + 1 + 1) = 4096 * 64 ^ j from by rw [pow_succ, pow_succ]; ring]
          rw [← Nat.div_div_eq_div_mul]
          rw [show (ac + 16 * (b + 256 * natOfBytesLE rest)) / 4096
                = (ac + b * 16) / 64 / 64 + natOfBytesLE rest from by omega]
    · -- bits = 5
      simp only [base64_encode_go, natOfBytesLE, List.length_cons]
      norm_num
      rw [emitLoop_two (ac + b * 32) 13 (by norm_num) (by norm_num)]
      simp only [List.cons_append, List.nil_append]
      norm_num
      rw [show (8 * (rest.length + 1) + 5 + 5) / 6
            = (8 * rest.length + 1 + 5) / 6 + 1 + 1 from by omega]
      rw [List.range_succ_eq_map]
      simp only [List.map_cons, List.map_map]
      congr 1
      · norm_num
        congr 1
        omega
      · rw [List.range_succ_eq_map]
        simp only [List.map_cons, List.map_map]
        congr 1
        · simp only [Function.comp_apply, Nat.succ_eq_add_one]
          norm_num
          congr 1
          omega
        · rw [ih ((ac + b * 32) / 64 / 64) 1 hrest (by norm_num) (by omega)]
          apply List.map_congr_left
          intro j hj
          simp only [Function.comp_apply, Nat.succ_eq_add_one]
          norm_num
          congr 1
          rw [show (64:ℕ) ^ (j + 1 + 1) = 4096 * 64 ^ j from by rw [pow_succ, pow_succ]; ring]
          rw [← Nat.div_div_eq_div_mul]
          rw [show (ac + 32 * (b + 256 * natOfBytesLE rest)) / 4096
                = (ac + b * 32) / 64 / 64 + 2 * natOfBytesLE rest from by omega]

/-- Top-level round trip: decoding an encoded byte sequence gives it back. -/
theorem base64_decode_encode (b : List Nat) (h : ∀ x ∈ b, x < 256) :
    base64_decode (base64_encode b) = .ok b := by
  have hh := decode_encode_go b 0 0 0 h (by norm_num) (by norm_num) (by norm_num)
  simpa [base64_encode, base64_decode] using hh

/-- The encoder output is the little-endian base-64 digit string of the byte
sequence read as a little-endian integer, one alphabet character per 6-bit
digit, with ceil(4n/3) characters in total. -/
theorem base64_encode_spec (b : List Nat) (h : ∀ x ∈ b, x < 256) :
    base64_encode b =
      (List.range ((4 * b.length + 2) / 3)).map
        (fun j => lookupChar (natOfBytesLE b / 64 ^ j % 64)) := by
  have hh := encode_go_spec b 0 0 h (by norm_num) (by norm_num)
  rw [base64_encode, hh]
  rw [show (8 * b.length + 0 + 5) / 6 = (4 * b.length + 2) / 3 from by omega]
  norm_num

/-- Encoded length is ceil(4n/3), computed as in the BASE64_CHARS macro. -/
theorem base64_encode_length (b : List Nat) (h : ∀ x ∈ b, x < 256) :
    (base64_encode b).length = (4 * b.length + 2) / 3 := by
  rw [base64_encode_spec b h]
  simp

/-- Every character the encoder emits belongs to the 64-character alphabet. -/
theorem base64_encode_mem (b : List Nat) (h : ∀ x ∈ b, x < 256) :
    ∀ c ∈ base64_encode b, c ∈ lookup_table := by
  rw [base64_encode_spec b h]
  intro c hc
  simp only [List.mem_map, List.mem_range] at hc
  obtain ⟨j, _, rfl⟩ := hc
  exact (lookup_table_roundtrip _ (Nat.mod_lt _ (by norm_num))).1

/-- A character outside the alphabet anywhere in the input makes the decoder
return -2 (the strchr failure branch). -/
theorem base64_decode_go_invalid (s : List Char) :
    ∀ ac bits, (∃ c ∈ s, c ∉ lookup_table) → base64_decode_go s ac bits = .error (-2) := by
  induction s with
  | nil =>
    intro ac bits h
    simp at h
  | cons c rest ih =>
    intro ac bits h
    by_cases hc : c ∈ lookup_table
    · have hr : ∃ x ∈ rest, x ∉ lookup_table := by
        obtain ⟨d, hd, hnd⟩ := h
        rcases List.mem_cons.mp hd with rfl | hdr
        · exact absurd hc hnd
        · exact ⟨d, hdr, hnd⟩
      simp only [base64_decode_go, if_pos hc]
      by_cases hbits : bits + 6 ≥ 8
      · rw [if_pos hbits, ih _ _ hr]
      · rw [if_neg hbits]
        exact ih _ _ hr
    · simp only [base64_decode_go, if_neg hc]

theorem base64_decode_invalid (s : List Char) (h : ∃ c ∈ s, c ∉ lookup_table) :
    base64_decode s = .error (-2) :=
  base64_decode_go_invalid s 0 0 h

/-- Or-ing with a low-bit mask sets the low k bits, arithmetically. -/
theorem lor_two_pow_sub_one (a k : Nat) :
    a ||| (2 ^ k - 1) = 2 ^ k * (a / 2 ^ k) + (2 ^ k - 1) := by
  apply Nat.eq_of_testBit_eq
  intro i
  rw [Nat.testBit_or]
  rw [Nat.testBit_mul_pow_two_add _ (Nat.sub_lt (Nat.two_pow_pos k) one_pos) i]
  by_cases h : i < k
  · simp [h, Nat.testBit_two_pow_sub_one]
  · simp only [Nat.testBit_two_pow_sub_one]
    simp only [if_neg h]
    rw [← Nat.shiftRight_eq_div_pow, Nat.testBit_shiftRight]
    rw [show k + (i - k) = i from by omega]
    simp [h]

/-- round_up by a power of two, arithmetically. -/
theorem round_up_eq (x k : Nat) :
    round_up x (2 ^ k) = 2 ^ k * ((x - 1) / 2 ^ k) + 2 ^ k := by
  rw [round_up, lor_two_pow_sub_one]
  have := Nat.two_pow_pos k
  omega

/-- The facts about round_up that the length bounds need: the result is a
multiple of the granularity, at least x, below x plus one granule, and
monotone in x. -/
theorem round_up_facts (x k : Nat) (hx : 1 ≤ x) :
    round_up x (2 ^ k) % 2 ^ k = 0 ∧ x ≤ round_up x (2 ^ k) ∧
    round_up x (2 ^ k) < x + 2 ^ k ∧
    (∀ y, x ≤ y → round_up x (2 ^ k) ≤ round_up y (2 ^ k)) := by
  have h2 := Nat.two_pow_pos k
  have hdm := Nat.div_add_mod (x - 1) (2 ^ k)
  have hml : (x - 1) % 2 ^ k < 2 ^ k := Nat.mod_lt _ h2
  refine ⟨?_, ?_, ?_, ?_⟩
  · rw [round_up_eq, show 2 ^ k * ((x - 1) / 2 ^ k) + 2 ^ k = 2 ^ k * ((x - 1) / 2 ^ k + 1)
      from by ring]
    exact Nat.mul_mod_right _ _
  · rw [round_up_eq]
    omega
  · rw [round_up_eq]
    omega
  · intro y hy
    rw [round_up_eq, round_up_eq]
    have hdiv : (x - 1) / 2 ^ k ≤ (y - 1) / 2 ^ k := Nat.div_le_div_right (by omega)
    have := Nat.mul_le_mul_left (2 ^ k) hdiv
    omega

/-- The padding granularity in power-of-two form. -/
theorem pad_eq (f : Nat) :
    4 <<< (f &&& FS_POLICY_FLAGS_PAD_MASK) = 2 ^ ((f &&& FS_POLICY_FLAGS_PAD_MASK) + 2) := by
  rw [Nat.shiftLeft_eq, pow_add]
  ring

theorem pad_le (f : Nat) : 4 <<< (f &&& FS_POLICY_FLAGS_PAD_MASK) ≤ 32 := by
  rw [pad_eq]
  have hs : f &&& FS_POLICY_FLAGS_PAD_MASK ≤ 3 := Nat.and_le_right
  calc 2 ^ ((f &&& FS_POLICY_FLAGS_PAD_MASK) + 2) ≤ 2 ^ 5 :=
        Nat.pow_le_pow_right (by norm_num) (by omega)
    _ = 32 := by norm_num

/-- C5 amended: encrypted_size reports too-long exactly when the raw length
exceeds the maximum; otherwise (below the u32 wrap boundary) the output is
monotone in the raw length, never exceeds the maximum, and is either a
multiple of the selected padding granularity and at least one cipher block,
or (when the padded length was clamped) exactly the maximum. -/
theorem c5_encrypted_size_amended (ci_flags orig_len orig2 max_len : Nat)
    (hw : orig_len + 32 < 2 ^ 32) (hw2 : orig2 + 32 < 2 ^ 32) :
    (fscrypt_fname_encrypted_size ci_flags orig_len max_len = none ↔ max_len < orig_len) ∧
    (∀ r, fscrypt_fname_encrypted_size ci_flags orig_len max_len = some r →
      r ≤ max_len ∧
      ((r % (4 <<< (ci_flags &&& FS_POLICY_FLAGS_PAD_MASK)) = 0 ∧ FS_CRYPTO_BLOCK_SIZE ≤ r)
        ∨ r = max_len)) ∧
    (∀ r r2, orig_len ≤ orig2 →
      fscrypt_fname_encrypted_size ci_flags orig_len max_len = some r →
      fscrypt_fname_encrypted_size ci_flags orig2 max_len = some r2 → r ≤ r2) := by
  have hs : ci_flags &&& FS_POLICY_FLAGS_PAD_MASK ≤ 3 := Nat.and_le_right
  have hp32 : 2 ^ ((ci_flags &&& FS_POLICY_FLAGS_PAD_MASK) + 2) ≤ 32 := by
    calc 2 ^ ((ci_flags &&& FS_POLICY_FLAGS_PAD_MASK) + 2) ≤ 2 ^ 5 :=
          Nat.pow_le_pow_right (by norm_num) (by omega)
      _ = 32 := by norm_num
  have hp1 : 1 ≤ 2 ^ ((ci_flags &&& FS_POLICY_FLAGS_PAD_MASK) + 2) := Nat.one_le_two_pow
  have hru := round_up_facts (max orig_len FS_CRYPTO_BLOCK_SIZE)
    ((ci_flags &&& FS_POLICY_FLAGS_PAD_MASK) + 2) (by simp [FS_CRYPTO_BLOCK_SIZE])
  have hru2 := round_up_facts (max orig2 FS_CRYPTO_BLOCK_SIZE)
    ((ci_flags &&& FS_POLICY_FLAGS_PAD_MASK) + 2) (by simp [FS_CRYPTO_BLOCK_SIZE])
  have hR32 : round_up (max orig_len FS_CRYPTO_BLOCK_SIZE)
      (2 ^ ((ci_flags &&& FS_POLICY_FLAGS_PAD_MASK) + 2)) < 2 ^ 32 := by
    have := hru.2.2.1
    simp only [FS_CRYPTO_BLOCK_SIZE] at *
    omega
  have hR32b : round_up (max orig2 FS_CRYPTO_BLOCK_SIZE)
      (2 ^ ((ci_flags &&& FS_POLICY_FLAGS_PAD_MASK) + 2)) < 2 ^ 32 := by
    have := hru2.2.2.1
    simp only [FS_CRYPTO_BLOCK_SIZE] at *
    omega
  by_cases hgt : orig_len > max_len
  · simp only [fscrypt_fname_encrypted_size, if_pos hgt]
    refine ⟨by simpa using hgt, ?_, ?_⟩
    · intro r hr
      simp at hr
    · intro r r2 _ hr
      simp at hr
  · have hrw : fscrypt_fname_encrypted_size ci_flags orig_len max_len
        = some (min (round_up (max orig_len FS_CRYPTO_BLOCK_SIZE)
            (2 ^ ((ci_flags &&& FS_POLICY_FLAGS_PAD_MASK) + 2))) max_len) := by
      simp only [fscrypt_fname_encrypted_size, if_neg hgt, pad_eq]
      rw [Nat.mod_eq_of_lt hR32]
    refine ⟨?_, ?_, ?_⟩
    · rw [hrw]
      simp
      omega
    · intro r hr
      rw [hrw] at hr
      have hr' := Option.some.inj hr
      constructor
      · omega
      · by_cases hc : round_up (max orig_len FS_CRYPTO_BLOCK_SIZE)
            (2 ^ ((ci_flags &&& FS_POLICY_FLAGS_PAD_MASK) + 2)) ≤ max_len
        · left
          rw [pad_eq]
          constructor
          · rw [← hr'] at *
            rw [Nat.min_eq_left hc]
            exact hru.1
          · have h16 := hru.2.1
            simp only [FS_CRYPTO_BLOCK_SIZE] at *
            omega
        · right
          omega
    · intro r r2 hle hr hr2
      by_cases hgt2 : orig2 > max_len
      · rw [show fscrypt_fname_encrypted_size ci_flags orig2 max_len = none from by
          simp only [fscrypt_fname_encrypted_size, if_pos hgt2]] at hr2
        simp at hr2
      · have hrw2 : fscrypt_fname_encrypted_size ci_flags orig2 max_len
            = some (min (round_up (max orig2 FS_CRYPTO_BLOCK_SIZE)
                (2 ^ ((ci_flags &&& FS_POLICY_FLAGS_PAD_MASK) + 2))) max_len) := by
          simp only [fscrypt_fname_encrypted_size, if_neg hgt2, pad_eq]
          rw [Nat.mod_eq_of_lt hR32b]
        rw [hrw] at hr
        rw [hrw2] at hr2
        have hmono := hru.2.2.2 (max orig2 FS_CRYPTO_BLOCK_SIZE) (by omega)
        have h1 := Option.some.inj hr
        have h2 := Option.some.inj hr2
        omega

theorem copy8_of_length (l : List Nat) (h : l.length = 8) : copy8 l = l := by
  simp [copy8, h, List.take_of_length_le]

theorem fscrypt_policy_bytes_length (p : fscrypt_policy_v1) :
    (fscrypt_policy_bytes p).length = 12 := by
  simp [fscrypt_policy_bytes, copy8]
  omega

theorem list_eq_iff_getD (xs ys : List Nat) (hx : xs.length = 12) (hy : ys.length = 12) :
    xs = ys ↔ ∀ j < 12, xs.getD j 0 = ys.getD j 0 := by
  constructor
  · intro h j _
    rw [h]
  · intro h
    apply List.ext_getElem (by omega)
    intro i h1 h2
    have hd := h i (by omega)
    simp only [List.getD_eq_getElem?_getD] at hd
    rw [List.getElem?_eq_getElem h1, List.getElem?_eq_getElem h2] at hd
    simpa using hd

/-- C7: fscrypt_supported_policy is a pure predicate accepting exactly the
V1 policies whose content/filename mode pair passes the mode validity check,
whose flag bits all lie inside the padding mask and the direct-key bit,
whose direct-key flag is clear, and whose target is not casefolded. -/
theorem c7_supported_policy_characterization (valid_enc_modes : Nat → Nat → Bool)
    (p : fscrypt_policy_v1) (casefolded : Bool) :
    fscrypt_supported_policy valid_enc_modes p casefolded =
      (decide (p.version = FSCRYPT_POLICY_V1)
        && valid_enc_modes p.contents_encryption_mode p.filenames_encryption_mode
        && decide (p.flags &&& (FS_POLICY_FLAGS_PAD_MASK ||| FSCRYPT_POLICY_FLAG_DIRECT_KEY)
            = p.flags)
        && decide (p.flags &&& FSCRYPT_POLICY_FLAG_DIRECT_KEY = 0)
        && !casefolded) := by
  unfold fscrypt_supported_policy fscrypt_supported_v1_policy
  split_ifs <;> simp_all

/-- C9: fscrypt_policies_equal is reflexive and symmetric, false whenever
the versions differ, and for equal versions it holds exactly when every byte
of the version-determined policy size coincides. -/
theorem c9_policies_equal_laws (a b : fscrypt_policy_v1) :
    fscrypt_policies_equal a a = true ∧
    fscrypt_policies_equal a b = fscrypt_policies_equal b a ∧
    (a.version ≠ b.version → fscrypt_policies_equal a b = false) ∧
    (a.version = b.version →
      (fscrypt_policies_equal a b = true ↔
        ∀ j < (fscrypt_policy_size a).toNat,
          (fscrypt_policy_bytes a).getD j 0 = (fscrypt_policy_bytes b).getD j 0)) := by
  refine ⟨?_, ?_, ?_, ?_⟩
  · simp [fscrypt_policies_equal]
  · by_cases hv : a.version = b.version
    · have hsz : fscrypt_policy_size a = fscrypt_policy_size b := by
        simp [fscrypt_policy_size, hv]
      simp only [fscrypt_policies_equal, hv, hsz]
      simp [eq_comm]
    · simp [fscrypt_policies_equal, hv, Ne.symm hv]
  · intro hv
    simp [fscrypt_policies_equal, hv]
  · intro hv
    have hcond : ¬ a.version ≠ b.version := by simp [hv]
    simp only [fscrypt_policies_equal, if_neg hcond, beq_iff_eq]
    by_cases h0 : a.version = FSCRYPT_POLICY_V1
    · have hn : (fscrypt_policy_size a).toNat = 12 := by simp [fscrypt_policy_size, h0]
      rw [hn, List.take_of_length_le (by simp [fscrypt_policy_bytes_length]),
        List.take_of_length_le (by simp [fscrypt_policy_bytes_length])]
      exact list_eq_iff_getD _ _ (fscrypt_policy_bytes_length a) (fscrypt_policy_bytes_length b)
    · have hn : (fscrypt_policy_size a).toNat = 0 := by simp [fscrypt_policy_size, h0]
      rw [hn]
      simp

theorem c9_witness :
    fscrypt_policies_equal p0 p0 = true ∧ fscrypt_policies_equal p0 p_v9 = false :=
  ⟨(c9_policies_equal_laws p0 p_v9).1, (c9_policies_equal_laws p0 p_v9).2.2.1 (by decide)⟩

/-- C8: converting a valid V1 policy to an on-disk context and back yields
the policy again in every field; the freshly generated nonce lives only in
the context (stored verbatim in its nonce field) and takes no part in the
policy comparison.  The descriptor length hypothesis is the fixed 8-byte
array bound of the C struct. -/
theorem c8_context_policy_roundtrip (valid_enc_modes : Nat → Nat → Bool)
    (p : fscrypt_policy_v1) (casefolded : Bool) (nonce : List Nat)
    (hvalid : fscrypt_supported_policy valid_enc_modes p casefolded = true)
    (hlen : p.master_key_descriptor.length = 8) :
    fscrypt_policy_from_context (fscrypt_new_context_from_policy nonce p).1
        (fscrypt_new_context_from_policy nonce p).2 = .ok p ∧
    (fscrypt_new_context_from_policy nonce p).1.nonce = nonce := by
  have hv : p.version = FSCRYPT_POLICY_V1 := by
    by_contra h
    simp [fscrypt_supported_policy, h] at hvalid
  refine ⟨?_, rfl⟩
  simp only [fscrypt_new_context_from_policy, fscrypt_policy_from_context]
  rw [copy8_of_length _ (by simp [copy8_of_length _ hlen, hlen])]
  rw [copy8_of_length _ hlen]
  simp only [Except.ok.injEq]
  cases p
  simp_all

/-- C10: the nokey base64 round-trips (decoding an encoding returns exactly
the bytes), the encoded length is ceil(4n/3) (Nat division (4n+2)/3, the
BASE64_CHARS macro), and any input character outside the 64-character
alphabet makes decoding fail. -/
theorem c10_base64_roundtrip :
    (∀ b : List Nat, (∀ x ∈ b, x < 256) →
      base64_decode (base64_encode b) = .ok b ∧
      (base64_encode b).length = (4 * b.length + 2) / 3) ∧
    (∀ s : List Char, (∃ c ∈ s, c ∉ lookup_table) → base64_decode s = .error (-2)) :=
  ⟨fun b h => ⟨base64_decode_encode b h, base64_encode_length b h⟩,
   fun s h => base64_decode_invalid s h⟩

theorem c10_witness :
    base64_decode (base64_encode [255, 0, 7]) = .ok [255, 0, 7] ∧
    base64_decode ['*'] = .error (-2) :=
  ⟨(c10_base64_roundtrip.1 [255, 0, 7] (by decide)).1,
   c10_base64_roundtrip.2 ['*'] (by decide)⟩

theorem c8_witness :
    fscrypt_policy_from_context
        (fscrypt_new_context_from_policy (List.replicate 16 9) p0).1
        (fscrypt_new_context_from_policy (List.replicate 16 9) p0).2 = .ok p0 ∧
    (fscrypt_new_context_from_policy (List.replicate 16 9) p0).1.nonce
      = List.replicate 16 9 :=
  c8_context_policy_roundtrip vmAll p0 false (List.replicate 16 9) (by decide) (by decide)

/-- C1 counterexample: an inode that already carries the cached policy p0;
calling set_policy with the byte-identical policy returns 0 (success), not
the policy-conflict error -EEXIST that the claim requires. -/
theorem c1_counterexample :
    fscrypt_get_policy inode_with_policy = .ok p0 ∧
    fscrypt_policies_equal p0 p0 = true ∧
    fscrypt_ioctl_set_policy vmAll inode_with_policy p0 = 0 ∧
    (0 : Int) ≠ -EEXIST := by
  refine ⟨by decide, by decide, by decide, by decide⟩

/-- C1 amended: when the inode's existing policy is readable and the caller
passes the size, permission and write-access checks, set_policy returns 0
exactly when the new policy is byte-identical to the existing one and
-EEXIST exactly when it differs; re-asserting an identical policy is a
silent no-op success, never a reported conflict. -/
theorem c1_set_policy_existing (valid_enc_modes : Nat → Nat → Bool) (i : Inode)
    (p existing : fscrypt_policy_v1)
    (hown : i.owner_or_capable = true) (hwr : i.mnt_want_write_err = 0)
    (hver : p.version = FSCRYPT_POLICY_V1)
    (hex : fscrypt_get_policy i = .ok existing) :
    fscrypt_ioctl_set_policy valid_enc_modes i p
      = if fscrypt_policies_equal p existing then 0 else -EEXIST := by
  unfold fscrypt_ioctl_set_policy
  rw [hex]
  simp only [fscrypt_policy_size, hver, hown, hwr, if_true]
  norm_num
  by_cases hpe : fscrypt_policies_equal p existing <;> simp [hpe]

theorem c1_witness :
    fscrypt_ioctl_set_policy vmAll inode_with_policy p0
      = if fscrypt_policies_equal p0 p0 then 0 else -EEXIST :=
  c1_set_policy_existing vmAll inode_with_policy p0 p0 rfl rfl rfl (by decide)

/-- C2: fscrypt_has_permitted_context permits any child that is not a
regular file, directory or symlink; permits everything under an unencrypted
parent; forbids an unencrypted regular/directory/symlink child under an
encrypted parent; forbids whenever encryption-info resolution or a policy
read fails for either inode; and when every step succeeds it returns
whether the two resolved policies are byte-identical. -/
theorem c2_has_permitted_context_cases (parent child : Inode) :
    (child.i_mode ≠ FileKind.reg ∧ child.i_mode ≠ FileKind.dir
        ∧ child.i_mode ≠ FileKind.lnk →
      fscrypt_has_permitted_context parent child = 1) ∧
    (parent.encrypted = false → fscrypt_has_permitted_context parent child = 1) ∧
    ((child.i_mode = FileKind.reg ∨ child.i_mode = FileKind.dir
        ∨ child.i_mode = FileKind.lnk) →
      parent.encrypted = true → child.encrypted = false →
      fscrypt_has_permitted_context parent child = 0) ∧
    ((child.i_mode = FileKind.reg ∨ child.i_mode = FileKind.dir
        ∨ child.i_mode = FileKind.lnk) →
      parent.encrypted = true → child.encrypted = true →
      (parent.get_info_err ≠ 0 ∨ child.get_info_err ≠ 0 ∨
        (∃ e, fscrypt_get_policy parent = .error e) ∨
        (∃ e, fscrypt_get_policy child = .error e)) →
      fscrypt_has_permitted_context parent child = 0) ∧
    ((child.i_mode = FileKind.reg ∨ child.i_mode = FileKind.dir
        ∨ child.i_mode = FileKind.lnk) →
      parent.encrypted = true → child.encrypted = true →
      parent.get_info_err = 0 → child.get_info_err = 0 →
      ∀ pp cp, fscrypt_get_policy parent = .ok pp → fscrypt_get_policy child = .ok cp →
        fscrypt_has_permitted_context parent child
          = if fscrypt_policies_equal pp cp then 1 else 0) := by
  refine ⟨?_, ?_, ?_, ?_, ?_⟩
  · intro h
    simp [fscrypt_has_permitted_context, h.1, h.2.1, h.2.2]
  · intro hp
    by_cases hm : child.i_mode ≠ FileKind.reg ∧ child.i_mode ≠ FileKind.dir
        ∧ child.i_mode ≠ FileKind.lnk
    · simp [fscrypt_has_permitted_context, hm.1, hm.2.1, hm.2.2]
    · simp [fscrypt_has_permitted_context, hm, hp]
  · intro htype hp hc
    have hm : ¬ (child.i_mode ≠ FileKind.reg ∧ child.i_mode ≠ FileKind.dir
        ∧ child.i_mode ≠ FileKind.lnk) := by
      rcases htype with h | h | h <;> simp [h]
    simp [fscrypt_has_permitted_context, hm, hp, hc]
  · intro htype hp hc hfail
    have hm : ¬ (child.i_mode ≠ FileKind.reg ∧ child.i_mode ≠ FileKind.dir
        ∧ child.i_mode ≠ FileKind.lnk) := by
      rcases htype with h | h | h <;> simp [h]
    rcases hfail with hf | hf | ⟨e, hf⟩ | ⟨e, hf⟩
    · simp [fscrypt_has_permitted_context, hm, hp, hc, hf]
    · simp [fscrypt_has_permitted_context, hm, hp, hc, hf]
    · by_cases hpi : parent.get_info_err ≠ 0
      · simp [fscrypt_has_permitted_context, hm, hp, hc, hpi]
      · by_cases hci : child.get_info_err ≠ 0
        · simp [fscrypt_has_permitted_context, hm, hp, hc, hpi, hci]
        · simp [fscrypt_has_permitted_context, hm, hp, hc, hpi, hci, hf]
    · by_cases hpi : parent.get_info_err ≠ 0
      · simp [fscrypt_has_permitted_context, hm, hp, hc, hpi]
      · by_cases hci : child.get_info_err ≠ 0
        · simp [fscrypt_has_permitted_context, hm, hp, hc, hpi, hci]
        · cases hpp : fscrypt_get_policy parent with
          | error e2 => simp [fscrypt_has_permitted_context, hm, hp, hc, hpi, hci, hpp]
          | ok pp => simp [fscrypt_has_permitted_context, hm, hp, hc, hpi, hci, hpp, hf]
  · intro htype hp hc hpi hci pp cp hpp hcp
    have hm : ¬ (child.i_mode ≠ FileKind.reg ∧ child.i_mode ≠ FileKind.dir
        ∧ child.i_mode ≠ FileKind.lnk) := by
      rcases htype with h | h | h <;> simp [h]
    simp [fscrypt_has_permitted_context, hm, hp, hc, hpi, hci, hpp, hcp]

theorem c2_witness :
    fscrypt_has_permitted_context plain_parent inode_with_policy = 1 :=
  (c2_has_permitted_context_cases plain_parent inode_with_policy).2.1 rfl

/-- C5 counterexample: padding selector 3 selects granularity 32, but with
raw length 20 and maximum 20 the result is the clamped 20, which is neither
a multiple of 32 nor does the claim's unconditional granularity statement
hold. -/
theorem c5_counterexample :
    fscrypt_fname_encrypted_size 3 20 20 = some 20 ∧
    4 <<< (3 &&& FS_POLICY_FLAGS_PAD_MASK) = 32 ∧ ¬ 20 % 32 = 0 := by
  refine ⟨by decide, by decide, by decide⟩

theorem c5_witness :
    fscrypt_fname_encrypted_size 0 1 255 = none ↔ 255 < 1 :=
  (c5_encrypted_size_amended 0 1 2 255 (by norm_num) (by norm_num)).1

/-- C6 counterexample: on the single byte 0x01 the source encoder emits the
LOW six bits first, producing "BA"; the most-significant-bit-first reading
in the claim would produce "AQ".  They differ already at the first
character. -/
theorem c6_counterexample :
    base64_encode [1] = ['B', 'A'] ∧ base64_encode_msb [1] = ['A', 'Q'] ∧
    base64_encode [1] ≠ base64_encode_msb [1] := by
  refine ⟨by decide, by decide, by decide⟩

/-- C6 amended: the encoder uses the 64-character alphabet at 6 bits per
character with no padding character and a final partial group when the bit
count is not a multiple of 6, but it takes the bits LEAST-significant-first
within each accumulated byte group: the output is exactly the little-endian
base-64 digit sequence of the byte string read as a little-endian integer,
ceil(4n/3) characters long, every character in the alphabet. -/
theorem c6_encode_characterization (b : List Nat) (h : ∀ x ∈ b, x < 256) :
    base64_encode b
      = (List.range ((4 * b.length + 2) / 3)).map
          (fun j => lookupChar (natOfBytesLE b / 64 ^ j % 64)) ∧
    (base64_encode b).length = (4 * b.length + 2) / 3 ∧
    ∀ c ∈ base64_encode b, c ∈ lookup_table :=
  ⟨base64_encode_spec b h, base64_encode_length b h, base64_encode_mem b h⟩

theorem c6_witness :
    (base64_encode [1]).length = (4 * List.length [1] + 2) / 3 :=
  (c6_encode_characterization [1] (by decide)).2.1

theorem u32le_lt (y : Nat) : ∀ x ∈ u32le y, x < 256 := by
  intro x hx
  simp only [u32le, List.mem_cons, List.not_mem_nil, or_false] at hx
  rcases hx with rfl | rfl | rfl | rfl <;> exact Nat.mod_lt _ (by norm_num)

theorem nokey_dirhash_length (hash minor_hash : Nat) :
    (nokey_dirhash hash minor_hash).length = 8 := by
  by_cases h : hash ≠ 0 <;> simp [nokey_dirhash, h, u32le]

theorem nokey_dirhash_lt (hash minor_hash : Nat) :
    ∀ x ∈ nokey_dirhash hash minor_hash, x < 256 := by
  intro x hx
  unfold nokey_dirhash at hx
  split at hx <;>
    (rcases List.mem_append.mp hx with h | h
     · exact u32le_lt _ _ h
     · exact u32le_lt _ _ h)

theorem nokey_name_bytes_lt (sha256 : List Nat → List Nat) (hash minor_hash : Nat)
    (iname : List Nat) (hbytes : ∀ x ∈ iname, x < 256)
    (hsha : ∀ l, ∀ x ∈ sha256 l, x < 256) :
    ∀ x ∈ fscrypt_nokey_name_bytes sha256 hash minor_hash iname, x < 256 := by
  intro x hx
  unfold fscrypt_nokey_name_bytes at hx
  rcases List.mem_append.mp hx with h | h
  · exact nokey_dirhash_lt _ _ _ h
  · split at h
    · exact hbytes _ h
    · rcases List.mem_append.mp h with h2 | h2
      · exact hbytes _ (List.mem_of_mem_take h2)
      · exact hsha _ _ h2

/-- C3: without a key, a ciphertext name of at least one cipher block is
presented as the base64 encoding of a nokey record whose decoded bytes are:
for names of at most 149 bytes, the 8-byte dirhash pair followed by exactly
the ciphertext bytes and nothing else; for longer names, a record of exactly
the fixed digested size FSCRYPT_NOKEY_NAME_MAX — the dirhash pair, the
first 149 ciphertext bytes verbatim, and the 32-byte strong-hash digest of
the remaining ciphertext bytes. -/
theorem c3_disk_to_usr_nokey (sha256 : List Nat → List Nat)
    (decrypt : List Nat → Except Int (List Nat)) (hash minor_hash : Nat)
    (iname : List Nat) (hlen : FS_CRYPTO_BLOCK_SIZE ≤ iname.length)
    (hbytes : ∀ x ∈ iname, x < 256)
    (hsha_len : ∀ l, (sha256 l).length = 32)
    (hsha_bytes : ∀ l, ∀ x ∈ sha256 l, x < 256) :
    fscrypt_fname_disk_to_usr sha256 decrypt false hash minor_hash iname
      = .ok (base64_encode (fscrypt_nokey_name_bytes sha256 hash minor_hash iname)) ∧
    base64_decode (base64_encode (fscrypt_nokey_name_bytes sha256 hash minor_hash iname))
      = .ok (fscrypt_nokey_name_bytes sha256 hash minor_hash iname) ∧
    (iname.length ≤ 149 →
      fscrypt_nokey_name_bytes sha256 hash minor_hash iname
        = nokey_dirhash hash minor_hash ++ iname ∧
      (fscrypt_nokey_name_bytes sha256 hash minor_hash iname).length = 8 + iname.length) ∧
    (149 < iname.length →
      fscrypt_nokey_name_bytes sha256 hash minor_hash iname
        = nokey_dirhash hash minor_hash ++ iname.take 149 ++ sha256 (iname.drop 149) ∧
      (fscrypt_nokey_name_bytes sha256 hash minor_hash iname).length
        = FSCRYPT_NOKEY_NAME_MAX) := by
  have hlen16 : 16 ≤ iname.length := by simpa [FS_CRYPTO_BLOCK_SIZE] using hlen
  have hdot : is_dot_dotdot_bytes iname = false := by
    simp only [is_dot_dotdot_bytes, Bool.or_eq_false_iff, beq_eq_false_iff_ne]
    constructor <;> (intro h; subst h; simp at hlen16)
  have h16 : ¬ iname.length < FS_CRYPTO_BLOCK_SIZE := by
    simp only [FS_CRYPTO_BLOCK_SIZE]
    omega
  refine ⟨?_, ?_, ?_, ?_⟩
  · simp [fscrypt_fname_disk_to_usr, hdot, h16]
  · exact base64_decode_encode _ (nokey_name_bytes_lt sha256 hash minor_hash iname
      hbytes hsha_bytes)
  · intro h
    constructor
    · simp [fscrypt_nokey_name_bytes, h]
    · simp [fscrypt_nokey_name_bytes, h, nokey_dirhash_length]
  · intro h
    have h149 : ¬ iname.length ≤ 149 := by omega
    constructor
    · simp [fscrypt_nokey_name_bytes, h149]
    · simp [fscrypt_nokey_name_bytes, h149, nokey_dirhash_length, hsha_len,
        FSCRYPT_NOKEY_NAME_MAX]
      omega

theorem c3_witness :
    fscrypt_fname_disk_to_usr sha_stub dec_stub false 1 2 (List.replicate 16 200)
      = .ok (base64_encode (fscrypt_nokey_name_bytes sha_stub 1 2 (List.replicate 16 200))) ∧
    base64_decode
        (base64_encode (fscrypt_nokey_name_bytes sha_stub 1 2 (List.replicate 16 200)))
      = .ok (fscrypt_nokey_name_bytes sha_stub 1 2 (List.replicate 16 200)) :=
  ⟨(c3_disk_to_usr_nokey sha_stub dec_stub 1 2 (List.replicate 16 200) (by decide)
      (by intro x hx; simp [List.eq_of_mem_replicate hx])
      (by intro l; simp [sha_stub])
      (by intro l x hx; simp [sha_stub] at hx; simp [hx])).1,
   (c3_disk_to_usr_nokey sha_stub dec_stub 1 2 (List.replicate 16 200) (by decide)
      (by intro x hx; simp [List.eq_of_mem_replicate hx])
      (by intro l; simp [sha_stub])
      (by intro l x hx; simp [sha_stub] at hx; simp [hx])).2.1⟩

set_option maxRecDepth 40000 in
/-- C4 counterexample: 253 repetitions of the alphabet character 'A' decode
successfully to exactly FSCRYPT_NOKEY_NAME_MAX = 189 bytes — the digested
record length — yet the keyless lookup fails with -ENOENT, because the
length pre-check rejects any user name longer than BASE64_CHARS(189) = 252
characters before decoding. -/
theorem c4_counterexample :
    base64_decode (List.replicate 253 'A') = .ok (List.replicate 189 0) ∧
    (List.replicate 189 0).length = FSCRYPT_NOKEY_NAME_MAX ∧
    fscrypt_setup_filename encNone keyless_dir (List.replicate 253 'A') true
      = .error (-ENOENT) := by
  refine ⟨by decide, by decide, by decide⟩

/-- C4 amended: on an encrypted directory whose encryption info resolves but
whose key is absent, for a non-dot name: a non-lookup call fails with
-ENOKEY; a keyless lookup fails with -ENOENT (never -EINVAL) when the name
exceeds 252 characters (the maximum encoded digested size), when it fails to
decode, or when the decoded length is neither a full-variant length (the
8-byte dirhash pair plus 1..149 content bytes, 9..157) nor exactly the
digested length 189; a full-variant decode succeeds with the decoded
content bytes as the disk name, and a digested decode succeeds with no disk
name set. -/
theorem c4_setup_filename_keyless (encrypt : List Nat → Nat → Except Int (List Nat))
    (dir : Inode) (iname : List Char) (lookup : Bool)
    (henc : dir.encrypted = true) (hinfo : dir.get_info_err = 0)
    (hnokey : dir.i_crypt_info = none) (hdot : is_dot_dotdot iname = false) :
    (lookup = false → fscrypt_setup_filename encrypt dir iname lookup = .error (-ENOKEY)) ∧
    (lookup = true → 252 < iname.length →
      fscrypt_setup_filename encrypt dir iname lookup = .error (-ENOENT)) ∧
    (lookup = true → iname.length ≤ 252 →
      (∀ e, base64_decode iname = .error e →
        fscrypt_setup_filename encrypt dir iname lookup = .error (-ENOENT)) ∧
      (∀ bytes, base64_decode iname = .ok bytes →
        (bytes.length < 9 ∨ (157 < bytes.length ∧ bytes.length ≠ 189) →
          fscrypt_setup_filename encrypt dir iname lookup = .error (-ENOENT)) ∧
        (9 ≤ bytes.length → bytes.length ≤ 157 →
          fscrypt_setup_filename encrypt dir iname lookup
            = .ok { usr_fname := iname, disk_name := some (bytes.drop 8),
                    hash := u32le_val bytes, minor_hash := u32le_val (bytes.drop 4),
                    crypto_buf := bytes, is_ciphertext_name := true }) ∧
        (bytes.length = 189 →
          fscrypt_setup_filename encrypt dir iname lookup
            = .ok { usr_fname := iname, disk_name := none,
                    hash := u32le_val bytes, minor_hash := u32le_val (bytes.drop 4),
                    crypto_buf := bytes, is_ciphertext_name := true }))) := by
  have hcond : ¬ (¬ dir.encrypted ∨ is_dot_dotdot iname = true) := by
    simp [henc, hdot]
  refine ⟨?_, ?_, ?_⟩
  · intro hl
    subst hl
    simp [fscrypt_setup_filename, henc, hdot, hinfo, hnokey]
  · intro hl hlong
    subst hl
    have : ¬ iname.length ≤ (4 * FSCRYPT_NOKEY_NAME_MAX + 2) / 3 := by
      simp only [FSCRYPT_NOKEY_NAME_MAX]
      omega
    simp [fscrypt_setup_filename, henc, hdot, hinfo, hnokey, this]
  · intro hl hshort
    subst hl
    have hpre : ¬ (4 * FSCRYPT_NOKEY_NAME_MAX + 2) / 3 < iname.length := by
      simp only [FSCRYPT_NOKEY_NAME_MAX]
      omega
    refine ⟨?_, ?_⟩
    · intro e he
      simp [fscrypt_setup_filename, henc, hdot, hinfo, hnokey, hpre, he]
    · intro bytes hb
      refine ⟨?_, ?_, ?_⟩
      · intro hrange
        have : bytes.length < 9 ∨ 157 < bytes.length ∧ bytes.length ≠ FSCRYPT_NOKEY_NAME_MAX := by
          simpa [FSCRYPT_NOKEY_NAME_MAX] using hrange
        simp [fscrypt_setup_filename, henc, hdot, hinfo, hnokey, hpre, hb, this]
      · intro h9 h157
        have hno : ¬ (bytes.length < 9
            ∨ 157 < bytes.length ∧ bytes.length ≠ FSCRYPT_NOKEY_NAME_MAX) := by
          simp only [FSCRYPT_NOKEY_NAME_MAX]
          omega
        have hne : bytes.length ≠ FSCRYPT_NOKEY_NAME_MAX := by
          simp only [FSCRYPT_NOKEY_NAME_MAX]
          omega
        simp [fscrypt_setup_filename, henc, hdot, hinfo, hnokey, hpre, hb, hno, hne]
        omega
      · intro h189
        have hno : ¬ (bytes.length < 9
            ∨ 157 < bytes.length ∧ bytes.length ≠ FSCRYPT_NOKEY_NAME_MAX) := by
          simp only [FSCRYPT_NOKEY_NAME_MAX]
          omega
        have heq : ¬ bytes.length ≠ FSCRYPT_NOKEY_NAME_MAX := by
          simp only [FSCRYPT_NOKEY_NAME_MAX]
          omega
        simp [fscrypt_setup_filename, henc, hdot, hinfo, hnokey, hpre, hb, hno, heq]
        omega

theorem c4_witness :
    fscrypt_setup_filename encNone keyless_dir ['X'] false = .error (-ENOKEY) :=
  (c4_setup_filename_keyless encNone keyless_dir ['X'] false rfl rfl rfl (by decide)).1 rfl

end Fscrypt
